import Mathlib

/-!
Shallow embedding of `backend/budgetmapper/models.py` (openspending-backend).

Conventions of the embedding:
* Database rows are plain Lean structures; a database is a structure of lists
  of rows.  Foreign keys are stored as the referenced row's primary key
  (a `Nat`), except for the `MappedBudgetItem` fields, where the referenced
  rows are embedded directly (the ORM dereferences them transparently).
* Django's `Model.objects.get(...)` raises `DoesNotExist` when no row
  matches and `MultipleObjectsReturned` when several do; it never returns
  `None`.  This is modelled by `Except` with the error kinds below.
* `float` amounts are modelled as `ℚ` (the claims are about structural
  equalities of sums, not rounding).
* Byte strings are modelled as `List Nat`.
* Python recursion that can diverge on cyclic data (`get_value_of` through
  `MappedBudgetItem.value`, `Classification.level`) is given an explicit
  fuel parameter; exhausting the fuel yields the distinguished error
  `outOfFuel`, which a real run reaches only by non-termination.
-/

/-- Error outcomes of the Python code: `ValueError` is the mismatch error
raised at the top of `get_value_of`; `doesNotExist` and
`multipleObjectsReturned` are Django's `Model.objects.get` failures;
`outOfFuel` marks fuel exhaustion of the embedding (divergence). -/
inductive Err : Type where
  | valueError : Err
  | doesNotExist : Err
  | multipleObjectsReturned : Err
  | outOfFuel : Err
deriving DecidableEq, Repr

/-- Row of `ClassificationSystem` (only the primary key matters here). -/
structure ClassificationSystem : Type where
  id : Nat
deriving DecidableEq, Repr

/-- Row of `Classification`: primary key, owning system (FK), optional
parent (FK to `Classification`). -/
structure Classification : Type where
  id : Nat
  classification_system : Nat
  parent : Option Nat
deriving DecidableEq, Repr

/-- Row of `Budget`: primary key and owning classification system (FK). -/
structure Budget : Type where
  id : Nat
  classification_system : Nat
deriving DecidableEq, Repr

/-- The polymorphic part of a `BudgetItemBase` row: `AtomicBudgetItem`
carries a literal amount; `MappedBudgetItem` carries its `mapped_budget`
and its `mapped_classifications` (the ORM hands back the referenced rows,
so they are embedded directly). -/
inductive BudgetItemVariant : Type where
  | atomic (amount : ℚ) : BudgetItemVariant
  | mapped (mapped_budget : Budget) (mapped_classifications : List Classification) :
      BudgetItemVariant
deriving DecidableEq, Repr

/-- Row of `BudgetItemBase`: FKs to budget and classification plus the
variant payload. -/
structure BudgetItem : Type where
  budget : Nat
  classification : Nat
  variant : BudgetItemVariant
deriving DecidableEq, Repr

/-- The persisted state the resolver reads: all `Classification` rows and
all `BudgetItemBase` rows. -/
structure DB : Type where
  classifications : List Classification
  items : List BudgetItem
deriving DecidableEq, Repr

/-- Embedding of `ClassificationSystem.roots`: the code runs
`Classification.objects.filter(parent=None)` — it never restricts to
`self`, so it returns every parentless classification of every system. -/
def ClassificationSystem.roots (db : DB) (_self : ClassificationSystem) :
    List Classification :=
  db.classifications.filter (fun c => c.parent == none)

/-- Embedding of `ClassificationSystem.leaves`: rows of `self`'s system that no row of
`self`'s system references as parent (the `~Exists(...)` subquery). -/
def ClassificationSystem.leaves (db : DB) (self : ClassificationSystem) :
    List Classification :=
  db.classifications.filter (fun c =>
    !(db.classifications.any (fun k =>
        k.classification_system == self.id && k.parent == some c.id))
    && c.classification_system == self.id)

/-- FK dereference of `Classification.parent`: `none` when the field is
NULL, otherwise the row whose pk matches. -/
def Classification.parentRow (db : DB) (self : Classification) :
    Option Classification :=
  self.parent.bind (fun pid => db.classifications.find? (fun k => k.id == pid))

/-- Embedding of `Classification.level` with explicit fuel: `0` at a parentless node,
otherwise `parent.level + 1`; a dangling parent FK is `doesNotExist`, a
chain longer than the fuel is `outOfFuel` (the Python code just recurses,
diverging on a cycle). -/
def Classification.level (db : DB) : Nat → Classification → Except Err Nat
  | 0, _ => .error .outOfFuel
  | fuel + 1, self =>
    match self.parent with
    | none => .ok 0
    | some pid =>
      match db.classifications.find? (fun k => k.id == pid) with
      | none => .error .doesNotExist
      | some p => (Classification.level db fuel p).map (· + 1)

/-- Embedding of `BudgetItemBase.objects.get(budget=self, classification=classification)`
with Django semantics: no match raises `DoesNotExist`, more than one raises
`MultipleObjectsReturned`, exactly one is returned.  The `ok none` outcome
never occurs; it exists so that the `if val is not None` test of the source
can be embedded verbatim. -/
def budgetItemObjectsGet (db : DB) (b : Budget) (c : Classification) :
    Except Err (Option BudgetItem) :=
  match db.items.filter (fun i => i.budget == b.id && i.classification == c.id) with
  | [] => .error .doesNotExist
  | [v] => .ok (some v)
  | _ :: _ :: _ => .error .multipleObjectsReturned

/-- Embedding of `Classification.objects.filter(parent=classification)`: the children
query of `get_value_of` (note: not restricted to a classification system). -/
def childrenOf (db : DB) (c : Classification) : List Classification :=
  db.classifications.filter (fun k => k.parent == some c.id)

/-- Python's `sum(...)` over a generator of fallible summands: evaluates
left to right, propagating the first error, and returns `0` for an empty
sequence. -/
def sumExcept : List (Except Err ℚ) → Except Err ℚ
  | [] => .ok 0
  | x :: xs =>
    match x with
    | .error e => .error e
    | .ok v =>
      match sumExcept xs with
      | .error e => .error e
      | .ok r => .ok (v + r)

/-- Embedding of `Budget.get_value_of(classification)`:
raise `ValueError` when the systems differ; otherwise fetch the item via
`objects.get` (which raises `DoesNotExist` when absent); when an item comes
back, dispatch on its variant (`AtomicBudgetItem.value` /
`MappedBudgetItem.value`); the `else` branch sums recursively over the
children.  Fuel bounds the recursion depth of the embedding. -/
def Budget.get_value_of (db : DB) : Nat → Budget → Classification → Except Err ℚ
  | 0, _, _ => .error .outOfFuel
  | fuel + 1, self, classification =>
    if self.classification_system != classification.classification_system then
      .error .valueError
    else
      match budgetItemObjectsGet db self classification with
      | .error e => .error e
      | .ok (some val) =>
        match val.variant with
        | .atomic amount => .ok amount
        | .mapped mapped_budget mapped_classifications =>
          sumExcept (mapped_classifications.map
            (fun c => Budget.get_value_of db fuel mapped_budget c))
      | .ok none =>
        sumExcept ((childrenOf db classification).map
          (fun c => Budget.get_value_of db fuel self c))

/-- Embedding of `BudgetItemBase.value`, dispatched on the concrete variant:
`AtomicBudgetItem` returns its literal amount, `MappedBudgetItem` returns
`sum(self.mapped_budget.get_value_of(c) for c in self.mapped_classifications.all())`. -/
def BudgetItem.value (db : DB) (fuel : Nat) (self : BudgetItem) : Except Err ℚ :=
  match self.variant with
  | .atomic amount => .ok amount
  | .mapped mapped_budget mapped_classifications =>
    sumExcept (mapped_classifications.map
      (fun c => Budget.get_value_of db fuel mapped_budget c))

/-! Chunked blob store -/

/-- The `while True` loop body of `Blob.write`: read at most `chunk_size`
bytes, stop on an empty read, otherwise persist a `BlobChunk` carrying the
running index and loop on the rest of the stream.  The stream is a byte
list whose `read(n)` yields its next `min(n, remaining)` bytes. -/
def blobWriteLoop (data : List Nat) (chunk_size : Nat) (idx : Nat) :
    List (Nat × List Nat) :=
  if h : (data.take chunk_size).length = 0 then
    []
  else
    (idx, data.take chunk_size) ::
      blobWriteLoop (data.drop chunk_size) chunk_size (idx + 1)
termination_by data.length
decreasing_by
  simp only [List.length_take, List.length_drop] at h ⊢
  omega

/-- Embedding of `Blob.write(data, name, chunk_size)`: the resulting `BlobChunk` rows as
(index, body) pairs, in creation order starting at index `0`. -/
def Blob.write (data : List Nat) (chunk_size : Nat) : List (Nat × List Nat) :=
  blobWriteLoop data chunk_size 0

/-- State of a `BlobReader`: the internal byte buffer and the not yet
consumed tail of the generator over the blob's chunks ordered by index
(each element is one chunk's `body`). -/
structure BlobReaderState : Type where
  buffer : List Nat
  chunks : List (List Nat)
deriving DecidableEq, Repr

/-- A fresh `BlobReader(blob)`: empty buffer, all chunk bodies pending. -/
def BlobReader.fresh (chunks : List (List Nat)) : BlobReaderState :=
  ⟨[], chunks⟩

/-- The `while size == -1 or len(self._buffer) < size` loop of
`BlobReader.read`: pull the next chunk body into the buffer until the
condition fails or the generator is exhausted (`StopIteration` breaks). -/
def BlobReader.readLoop (size : Int) (buffer : List Nat)
    (chunks : List (List Nat)) : List Nat × List (List Nat) :=
  if size = -1 ∨ (buffer.length : Int) < size then
    match chunks with
    | [] => (buffer, [])
    | c :: cs => BlobReader.readLoop size (buffer ++ c) cs
  else
    (buffer, chunks)

/-- Embedding of `BlobReader.read(size)`: after the pull loop, a non-negative `size`
returns `buffer[:size]` keeping `buffer[size:]`; otherwise the whole buffer
is returned and cleared. -/
def BlobReader.read (size : Int) (st : BlobReaderState) :
    List Nat × BlobReaderState :=
  let r := BlobReader.readLoop size st.buffer st.chunks
  if 0 ≤ size then
    (r.1.take size.toNat, ⟨r.1.drop size.toNat, r.2⟩)
  else
    (r.1, ⟨[], r.2⟩)

/-- Bytes a reader state can still deliver: buffered bytes followed by the
pending chunk bodies in order. -/
def BlobReader.remaining (st : BlobReaderState) : List Nat :=
  st.buffer ++ st.chunks.flatten

/-- Repeated `read` calls with the given sizes; returns the concatenation
of the returned byte strings and the final state. -/
def BlobReader.readMany : List Int → BlobReaderState → List Nat × BlobReaderState
  | [], st => ([], st)
  | s :: ss, st =>
    let r := BlobReader.read s st
    let rs := BlobReader.readMany ss r.2
    (r.1 ++ rs.1, rs.2)

/-- Example rows: two classification systems, each with one parentless node. -/
def sysZero : ClassificationSystem := ⟨0⟩

def rootInSysZero : Classification := ⟨1, 0, none⟩

def rootInSysOne : Classification := ⟨2, 1, none⟩

def twoSystemDB : DB := ⟨[rootInSysZero, rootInSysOne], []⟩

/-- The hypothesis of the `level` claim, decidably: the parent chain of `c`
resolves upward to a parentless node within `fuel` steps (so it is finite,
acyclic, and has no dangling FK). -/
def parentChainShort (db : DB) : Nat → Classification → Bool
  | 0, _ => false
  | fuel + 1, c =>
    match c.parent with
    | none => true
    | some pid =>
      match db.classifications.find? (fun k => k.id == pid) with
      | none => false
      | some p => parentChainShort db fuel p

/-- Example rows for the resolver claims: budget 0 over system 0, parent
node `P` with two leaf children holding atomic items 3 and 4, and no item
at `P` itself. -/
def budgetB : Budget := ⟨0, 0⟩

def parentP : Classification := ⟨1, 0, none⟩

def leafL1 : Classification := ⟨2, 0, some 1⟩

def leafL2 : Classification := ⟨3, 0, some 1⟩

def aggregationDB : DB :=
  ⟨[parentP, leafL1, leafL2], [⟨0, 2, .atomic 3⟩, ⟨0, 3, .atomic 4⟩]⟩

/-- A mapped budget in system 5, while its mapped classification lives in
system 0: resolving it raises the mismatch error one level down. -/
def mappedBudgetY : Budget := ⟨1, 5⟩

def classC : Classification := ⟨1, 0, none⟩

def classD : Classification := ⟨2, 0, none⟩

def crossSystemDB : DB := ⟨[classC, classD], [⟨0, 1, .mapped mappedBudgetY [classD]⟩]⟩

/-- Budget 1 over system 0 with atomic items 3 and 4 at classifications 1
and 2; a mapped item in another budget points at both. -/
def mappedTargetDB : DB :=
  ⟨[⟨1, 0, none⟩, ⟨2, 0, none⟩], [⟨1, 1, .atomic 3⟩, ⟨1, 2, .atomic 4⟩]⟩

def budgetY0 : Budget := ⟨1, 0⟩

def mappedItem : BudgetItem :=
  ⟨0, 9, .mapped budgetY0 [⟨1, 0, none⟩, ⟨2, 0, none⟩]⟩

theorem readLoop_flatten (size : Int) (chunks : List (List Nat)) :
    ∀ buffer, (BlobReader.readLoop size buffer chunks).1
        ++ (BlobReader.readLoop size buffer chunks).2.flatten
      = buffer ++ chunks.flatten := by
  induction chunks with
  | nil =>
    intro buffer
    rw [BlobReader.readLoop]
    split <;> simp
  | cons c cs ih =>
    intro buffer
    rw [BlobReader.readLoop]
    split
    · simpa [List.append_assoc] using ih (buffer ++ c)
    · simp

theorem readLoop_post (size : Int) (chunks : List (List Nat)) :
    ∀ buffer, size ≤ ((BlobReader.readLoop size buffer chunks).1.length : Int)
      ∨ (BlobReader.readLoop size buffer chunks).2 = [] := by
  induction chunks with
  | nil =>
    intro buffer
    rw [BlobReader.readLoop]
    split
    · right; rfl
    · next h =>
      left
      push_neg at h
      exact h.2
  | cons c cs ih =>
    intro buffer
    rw [BlobReader.readLoop]
    split
    · exact ih (buffer ++ c)
    · next h =>
      left
      push_neg at h
      exact h.2

theorem readLoop_drain (chunks : List (List Nat)) :
    ∀ buffer, BlobReader.readLoop (-1) buffer chunks = (buffer ++ chunks.flatten, []) := by
  induction chunks with
  | nil =>
    intro buffer
    rw [BlobReader.readLoop]
    simp
  | cons c cs ih =>
    intro buffer
    rw [BlobReader.readLoop]
    simp [ih (buffer ++ c)]

theorem read_nonneg_spec (size : Int) (hs : 0 ≤ size) (st : BlobReaderState) :
    (BlobReader.read size st).1 = (BlobReader.remaining st).take size.toNat ∧
    BlobReader.remaining (BlobReader.read size st).2
      = (BlobReader.remaining st).drop size.toNat := by
  have hflat := readLoop_flatten size st.chunks st.buffer
  have hpost := readLoop_post size st.chunks st.buffer
  unfold BlobReader.read
  rw [if_pos hs]
  set r := BlobReader.readLoop size st.buffer st.chunks with hr
  rcases hpost with hlen | hnil
  · have hle : size.toNat ≤ r.1.length := by omega
    constructor
    · simp only [BlobReader.remaining]
      rw [← hflat, List.take_append_of_le_length hle]
    · simp only [BlobReader.remaining]
      rw [← hflat, List.drop_append_of_le_length hle]
  · constructor
    · simp only [BlobReader.remaining]
      rw [← hflat, hnil]
      simp
    · simp only [BlobReader.remaining]
      rw [← hflat, hnil]
      simp

theorem read_neg_one (st : BlobReaderState) :
    BlobReader.read (-1) st = (BlobReader.remaining st, ⟨[], []⟩) := by
  unfold BlobReader.read
  rw [readLoop_drain st.chunks st.buffer]
  norm_num
  rfl

theorem read_lt_neg_one (size : Int) (h : size < -1) (st : BlobReaderState) :
    BlobReader.read size st = (st.buffer, ⟨[], st.chunks⟩) := by
  unfold BlobReader.read
  rw [BlobReader.readLoop.eq_def]
  have h1 : ¬(size = -1 ∨ (st.buffer.length : Int) < size) := by
    push_neg
    constructor
    · omega
    · have : (0 : Int) ≤ st.buffer.length := by positivity
      omega
  rw [if_neg h1, if_neg (by omega : ¬(0 : Int) ≤ size)]

theorem read_zero (st : BlobReaderState) : BlobReader.read 0 st = ([], st) := by
  unfold BlobReader.read
  rw [BlobReader.readLoop.eq_def]
  have h1 : ¬((0 : Int) = -1 ∨ (st.buffer.length : Int) < 0) := by
    push_neg
    constructor
    · omega
    · positivity
  rw [if_neg h1, if_pos (le_refl (0 : Int))]
  simp

theorem readMany_nonneg_spec (sizes : List Int) (h : ∀ s ∈ sizes, 0 ≤ s) :
    ∀ st : BlobReaderState,
      (BlobReader.readMany sizes st).1
        = (BlobReader.remaining st).take (sizes.map Int.toNat).sum ∧
      BlobReader.remaining (BlobReader.readMany sizes st).2
        = (BlobReader.remaining st).drop (sizes.map Int.toNat).sum := by
  induction sizes with
  | nil =>
    intro st
    simp [BlobReader.readMany]
  | cons s ss ih =>
    intro st
    have hs : 0 ≤ s := h s (List.mem_cons_self s ss)
    have hss : ∀ x ∈ ss, 0 ≤ x := fun x hx => h x (List.mem_cons_of_mem s hx)
    have h1 := read_nonneg_spec s hs st
    have h2 := ih hss (BlobReader.read s st).2
    rw [BlobReader.readMany]
    constructor
    · simp only
      rw [h1.1, h2.1, h1.2, List.map_cons, List.sum_cons, List.take_add,
        List.take_drop]
    · simp only
      rw [h2.2, h1.2, List.drop_drop, List.map_cons, List.sum_cons,
        Nat.add_comm]

theorem toNat_sum_eq (sizes : List Int) (h : ∀ s ∈ sizes, 0 ≤ s) :
    (((sizes.map Int.toNat).sum : Nat) : Int) = sizes.sum := by
  induction sizes with
  | nil => simp
  | cons s ss ih =>
    have hs : 0 ≤ s := h s (List.mem_cons_self s ss)
    have hss : ∀ x ∈ ss, 0 ≤ x := fun x hx => h x (List.mem_cons_of_mem s hx)
    simp only [List.map_cons, List.sum_cons, Nat.cast_add, ih hss,
      Int.toNat_of_nonneg hs]

/-- Claim C3: repeated `read` calls with arbitrary positive sizes that cover
the whole blob concatenate to the same bytes as a single `read()` with the
default size argument on a fresh reader, and a `read` with any size on an
exhausted reader returns the empty byte string. -/
theorem C3_sequential_reads (chunks : List (List Nat)) (sizes : List Int)
    (hpos : ∀ s ∈ sizes, 0 < s)
    (hcover : (chunks.flatten.length : Int) ≤ sizes.sum)
    (st : BlobReaderState) (hst : BlobReader.remaining st = []) (s : Int) :
    (BlobReader.readMany sizes (BlobReader.fresh chunks)).1
      = (BlobReader.read (-1) (BlobReader.fresh chunks)).1 ∧
    (BlobReader.read s st).1 = [] := by
  have hnn : ∀ x ∈ sizes, 0 ≤ x := fun x hx => le_of_lt (hpos x hx)
  constructor
  · have h1 := (readMany_nonneg_spec sizes hnn (BlobReader.fresh chunks)).1
    have h2 := read_neg_one (BlobReader.fresh chunks)
    have hrem : BlobReader.remaining (BlobReader.fresh chunks) = chunks.flatten := by
      simp [BlobReader.remaining, BlobReader.fresh]
    rw [h1, h2, hrem]
    have hge : chunks.flatten.length ≤ (sizes.map Int.toNat).sum := by
      have := toNat_sum_eq sizes hnn
      omega
    simp [List.take_of_length_le hge]
  · rcases lt_trichotomy s (-1) with hlt | heq | hgt
    · rw [read_lt_neg_one s hlt st]
      have : st.buffer ++ st.chunks.flatten = [] := hst
      simp only [List.append_eq_nil] at this
      exact this.1
    · subst heq
      rw [read_neg_one st, hst]
    · have hs : 0 ≤ s := by omega
      rw [(read_nonneg_spec s hs st).1, hst]
      simp

/-- Claim C6 counterexample: on a fresh reader over the single chunk
`[1, 2]`, `read(-2)` returns the empty byte string even though 2 bytes
remain, and a subsequent `read(-1)` still returns them — so a negative size
other than `-1` neither drains the chunks nor returns the remaining bytes. -/
theorem C6_counterexample :
    (BlobReader.read (-2) ⟨[], [[1, 2]]⟩).1 = [] ∧
    BlobReader.remaining ⟨[], [[1, 2]]⟩ = [1, 2] ∧
    (BlobReader.read (-1) (BlobReader.read (-2) ⟨[], [[1, 2]]⟩).2).1 = [1, 2] := by
  decide

/-- Claim C6 amended: only `size = -1` (the default) drains all remaining
chunks and returns all remaining bytes; a size below `-1` returns just the
bytes already buffered and leaves the pending chunk sequence untouched. -/
theorem C6_amended_reads (st : BlobReaderState) (s : Int) (h : s < -1) :
    BlobReader.read (-1) st = (BlobReader.remaining st, ⟨[], []⟩) ∧
    BlobReader.read s st = (st.buffer, ⟨[], st.chunks⟩) :=
  ⟨read_neg_one st, read_lt_neg_one s h st⟩

/-- Claim C10: `read(0)` returns the empty byte string and leaves the
reader state exactly as it was, pulling no chunk, so all subsequent reads
behave as if `read(0)` had not been called. -/
theorem C10_read_zero (st : BlobReaderState) : BlobReader.read 0 st = ([], st) :=
  read_zero st

theorem C3_witness :
    (∀ s ∈ ([2, 2] : List Int), 0 < s) ∧
    ((([[1, 2], [3]] : List (List Nat)).flatten.length : Int) ≤ ([2, 2] : List Int).sum ∧
    BlobReader.remaining ⟨[], []⟩ = []) ∧
    ((BlobReader.readMany [2, 2] (BlobReader.fresh [[1, 2], [3]])).1
      = (BlobReader.read (-1) (BlobReader.fresh [[1, 2], [3]])).1 ∧
    (BlobReader.read 7 (⟨[], []⟩ : BlobReaderState)).1 = []) :=
  ⟨by decide, ⟨by decide, by decide⟩,
    C3_sequential_reads [[1, 2], [3]] [2, 2] (by decide) (by decide) ⟨[], []⟩ (by decide) 7⟩

theorem C6_amended_witness :
    ((-3 : Int) < -1) ∧
    (BlobReader.read (-1) (⟨[5], [[1]]⟩ : BlobReaderState)
        = (BlobReader.remaining ⟨[5], [[1]]⟩, ⟨[], []⟩) ∧
      BlobReader.read (-3) (⟨[5], [[1]]⟩ : BlobReaderState) = ([5], ⟨[], [[1]]⟩)) :=
  ⟨by decide, C6_amended_reads ⟨[5], [[1]]⟩ (-3) (by decide)⟩

theorem blobWriteLoop_eq_nil_iff (k idx : Nat) (hk : 0 < k) (data : List Nat) :
    blobWriteLoop data k idx = [] ↔ data = [] := by
  rw [blobWriteLoop]
  split
  · next hz =>
    simp only [List.length_take] at hz
    constructor
    · intro _
      have : data.length = 0 := by omega
      exact List.eq_nil_of_length_eq_zero this
    · intro _; rfl
  · next hz =>
    simp only [List.length_take] at hz
    constructor
    · intro h; exact absurd h (List.cons_ne_nil _ _)
    · intro h; subst h; simp at hz

theorem blobWriteLoop_flatten_aux (k : Nat) (hk : 0 < k) :
    ∀ n data, List.length data ≤ n → ∀ idx,
      ((blobWriteLoop data k idx).map Prod.snd).flatten = data := by
  intro n
  induction n with
  | zero =>
    intro data h idx
    have hd : data = [] := List.eq_nil_of_length_eq_zero (Nat.le_zero.mp h)
    subst hd
    rw [blobWriteLoop]
    simp
  | succ n ih =>
    intro data h idx
    rw [blobWriteLoop]
    split
    · next hz =>
      simp only [List.length_take] at hz
      have hd : data = [] := by
        have : data.length = 0 := by omega
        exact List.eq_nil_of_length_eq_zero this
      simp [hd]
    · next hz =>
      simp only [List.length_take] at hz
      have hlen : (data.drop k).length ≤ n := by
        simp only [List.length_drop]
        omega
      simp only [List.map_cons, List.flatten_cons]
      rw [ih (data.drop k) hlen (idx + 1)]
      exact List.take_append_drop k data

theorem blobWriteLoop_length_aux (k : Nat) (hk : 0 < k) :
    ∀ n data, List.length data ≤ n → ∀ idx,
      (blobWriteLoop data k idx).length = (data.length + k - 1) / k := by
  intro n
  induction n with
  | zero =>
    intro data h idx
    have hd : data = [] := List.eq_nil_of_length_eq_zero (Nat.le_zero.mp h)
    subst hd
    rw [blobWriteLoop]
    simp [Nat.div_eq_of_lt (by omega : k - 1 < k)]
  | succ n ih =>
    intro data h idx
    rw [blobWriteLoop]
    split
    · next hz =>
      simp only [List.length_take] at hz
      have hd : data.length = 0 := by
        rcases Nat.eq_zero_or_pos data.length with h0 | h0
        · exact h0
        · exact absurd (by omega : k ⊓ data.length ≠ 0) (not_not_intro hz)
      simp [hd, Nat.div_eq_of_lt (by omega : k - 1 < k)]
    · next hz =>
      simp only [List.length_take] at hz
      have hpos : 0 < data.length := by
        rcases Nat.eq_zero_or_pos data.length with h0 | h0
        · exact absurd (by simp [h0] : k ⊓ data.length = 0) hz
        · exact h0
      have hlen : (data.drop k).length ≤ n := by
        rw [List.length_drop]
        omega
      simp only [List.length_cons]
      rw [ih (data.drop k) hlen (idx + 1), List.length_drop]
      have h1 : data.length + k - 1 = (data.length - 1) + k := by omega
      rcases Nat.lt_or_ge data.length k with hlt | hge
      · have h2 : data.length - k = 0 := by omega
        rw [h2, h1, Nat.add_div_right _ hk]
        simp [Nat.div_eq_of_lt (show k - 1 < k by omega),
          Nat.div_eq_of_lt (show data.length - 1 < k by omega)]
      · have h2 : data.length - k + k - 1 = data.length - 1 := by omega
        rw [h2, h1, Nat.add_div_right _ hk]

theorem blobWriteLoop_fst_aux (k : Nat) (hk : 0 < k) :
    ∀ n data, List.length data ≤ n → ∀ idx,
      (blobWriteLoop data k idx).map Prod.fst
        = List.range' idx (blobWriteLoop data k idx).length := by
  intro n
  induction n with
  | zero =>
    intro data h idx
    have hd : data = [] := List.eq_nil_of_length_eq_zero (Nat.le_zero.mp h)
    subst hd
    rw [blobWriteLoop]
    simp
  | succ n ih =>
    intro data h idx
    rw [blobWriteLoop]
    split
    · simp
    · next hz =>
      simp only [List.length_take] at hz
      have hpos : 0 < data.length := by
        rcases Nat.eq_zero_or_pos data.length with h0 | h0
        · exact absurd (by simp [h0] : k ⊓ data.length = 0) hz
        · exact h0
      have hlen : (data.drop k).length ≤ n := by
        rw [List.length_drop]
        omega
      simp only [List.map_cons, List.length_cons, List.range'_succ]
      rw [ih (data.drop k) hlen (idx + 1)]

theorem blobWriteLoop_dropLast_aux (k : Nat) (hk : 0 < k) :
    ∀ n data, List.length data ≤ n → ∀ idx,
      ∀ b ∈ ((blobWriteLoop data k idx).map Prod.snd).dropLast, b.length = k := by
  intro n
  induction n with
  | zero =>
    intro data h idx
    have hd : data = [] := List.eq_nil_of_length_eq_zero (Nat.le_zero.mp h)
    subst hd
    rw [blobWriteLoop]
    simp
  | succ n ih =>
    intro data h idx
    rw [blobWriteLoop]
    split
    · simp
    · next hz =>
      simp only [List.length_take] at hz
      have hpos : 0 < data.length := by
        rcases Nat.eq_zero_or_pos data.length with h0 | h0
        · exact absurd (by simp [h0] : k ⊓ data.length = 0) hz
        · exact h0
      have hlen : (data.drop k).length ≤ n := by
        rw [List.length_drop]
        omega
      by_cases hrest : blobWriteLoop (data.drop k) k (idx + 1) = []
      · rw [hrest]
        simp
      · have hne : (blobWriteLoop (data.drop k) k (idx + 1)).map Prod.snd ≠ [] := by
          simpa using hrest
        simp only [List.map_cons]
        rw [List.dropLast_cons_of_ne_nil hne]
        intro b hb
        rcases List.mem_cons.mp hb with hb | hb
        · subst hb
          have hdk : data.drop k ≠ [] := by
            intro hcon
            apply hrest
            rw [blobWriteLoop]
            simp [hcon]
          have hklen : k ≤ data.length := by
            by_contra hcon
            apply hdk
            apply List.eq_nil_of_length_eq_zero
            rw [List.length_drop]
            omega
          simp [List.length_take, Nat.min_eq_left hklen]
        · exact ih (data.drop k) hlen (idx + 1) b hb

theorem blobWriteLoop_getLast_aux (k : Nat) (hk : 0 < k) :
    ∀ n data, List.length data ≤ n → ∀ idx (h : blobWriteLoop data k idx ≠ []),
      ((blobWriteLoop data k idx).getLast h).2.length
        = if data.length % k = 0 then k else data.length % k := by
  intro n
  induction n with
  | zero =>
    intro data hle idx h
    have hd : data = [] := List.eq_nil_of_length_eq_zero (Nat.le_zero.mp hle)
    subst hd
    exact absurd ((blobWriteLoop_eq_nil_iff k idx hk []).mpr rfl) h
  | succ n ih =>
    intro data hle idx h
    have hd : data ≠ [] := by
      intro hcon
      exact h ((blobWriteLoop_eq_nil_iff k idx hk data).mpr hcon)
    have hpos : 0 < data.length := List.length_pos.mpr hd
    have hz : ¬(data.take k).length = 0 := by
      rw [List.length_take]
      omega
    have hlen : (data.drop k).length ≤ n := by
      rw [List.length_drop]
      omega
    rcases Nat.lt_or_ge data.length k with hlt | hge
    · -- the final (single) chunk: everything fits in one read
      have hdk : data.drop k = [] := by
        apply List.eq_nil_of_length_eq_zero
        rw [List.length_drop]
        omega
      have hrest : blobWriteLoop (data.drop k) k (idx + 1) = [] :=
        (blobWriteLoop_eq_nil_iff k (idx + 1) hk _).mpr hdk
      have heq : blobWriteLoop data k idx = [(idx, data.take k)] := by
        conv_lhs => rw [blobWriteLoop]
        rw [dif_neg hz, hrest]
      rw [List.getLast_congr h (List.cons_ne_nil _ _) heq, List.getLast_singleton]
      have hmod : data.length % k = data.length := Nat.mod_eq_of_lt hlt
      rw [List.length_take, Nat.min_eq_right (le_of_lt hlt), hmod,
        if_neg (by omega : ¬data.length = 0)]
    · rcases Nat.eq_or_lt_of_le hge with heq | hgt
      · -- data.length = k: single chunk of size exactly k
        have hdk : data.drop k = [] := by
          apply List.eq_nil_of_length_eq_zero
          rw [List.length_drop]
          omega
        have hrest : blobWriteLoop (data.drop k) k (idx + 1) = [] :=
          (blobWriteLoop_eq_nil_iff k (idx + 1) hk _).mpr hdk
        have heq2 : blobWriteLoop data k idx = [(idx, data.take k)] := by
          conv_lhs => rw [blobWriteLoop]
          rw [dif_neg hz, hrest]
        rw [List.getLast_congr h (List.cons_ne_nil _ _) heq2, List.getLast_singleton]
        rw [List.length_take, Nat.min_eq_left hge,
          if_pos (by rw [← heq, Nat.mod_self] : data.length % k = 0)]
      · -- more than one chunk: recurse on the dropped tail
        have hdk : data.drop k ≠ [] := by
          intro hcon
          have := congrArg List.length hcon
          rw [List.length_drop] at this
          simp at this
          omega
        have hrest : blobWriteLoop (data.drop k) k (idx + 1) ≠ [] := by
          intro hcon
          exact hdk ((blobWriteLoop_eq_nil_iff k (idx + 1) hk _).mp hcon)
        have heq2 : blobWriteLoop data k idx
            = (idx, data.take k) :: blobWriteLoop (data.drop k) k (idx + 1) := by
          conv_lhs => rw [blobWriteLoop]
          rw [dif_neg hz]
        rw [List.getLast_congr h (List.cons_ne_nil _ _) heq2, List.getLast_cons hrest]
        rw [ih (data.drop k) hlen (idx + 1) hrest, List.length_drop]
        have hmod : data.length % k = (data.length - k) % k :=
          Nat.mod_eq_sub_mod hge
        rw [← hmod]

/-- Claim C2: writing a stream of `N` bytes with a positive chunk size `k`
produces `ceil(N/k)` chunks with consecutive indices starting at 0, each
body of size `k` except possibly the last (of size `N mod k`, or `k` when
`k` divides `N`), and the bodies concatenated in index order are the
original stream. -/
theorem C2_blob_write_chunks (data : List Nat) (k : Nat) (hk : 0 < k) :
    (Blob.write data k).length = (data.length + k - 1) / k ∧
    (Blob.write data k).map Prod.fst = List.range (Blob.write data k).length ∧
    (∀ b ∈ ((Blob.write data k).map Prod.snd).dropLast, b.length = k) ∧
    (∀ h : Blob.write data k ≠ [],
      ((Blob.write data k).getLast h).2.length
        = if data.length % k = 0 then k else data.length % k) ∧
    ((Blob.write data k).map Prod.snd).flatten = data := by
  refine ⟨?_, ?_, ?_, ?_, ?_⟩
  · exact blobWriteLoop_length_aux k hk data.length data le_rfl 0
  · rw [List.range_eq_range']
    exact blobWriteLoop_fst_aux k hk data.length data le_rfl 0
  · exact blobWriteLoop_dropLast_aux k hk data.length data le_rfl 0
  · exact blobWriteLoop_getLast_aux k hk data.length data le_rfl 0
  · exact blobWriteLoop_flatten_aux k hk data.length data le_rfl 0

theorem C2_witness :
    0 < 2 ∧
    ((Blob.write [1, 2, 3, 4, 5] 2).length = (([1, 2, 3, 4, 5] : List Nat).length + 2 - 1) / 2 ∧
    (Blob.write [1, 2, 3, 4, 5] 2).map Prod.fst = List.range (Blob.write [1, 2, 3, 4, 5] 2).length ∧
    (∀ b ∈ ((Blob.write [1, 2, 3, 4, 5] 2).map Prod.snd).dropLast, b.length = 2) ∧
    (∀ h : Blob.write [1, 2, 3, 4, 5] 2 ≠ [],
      ((Blob.write [1, 2, 3, 4, 5] 2).getLast h).2.length
        = if ([1, 2, 3, 4, 5] : List Nat).length % 2 = 0 then 2
          else ([1, 2, 3, 4, 5] : List Nat).length % 2) ∧
    ((Blob.write [1, 2, 3, 4, 5] 2).map Prod.snd).flatten = [1, 2, 3, 4, 5]) :=
  ⟨by decide, C2_blob_write_chunks [1, 2, 3, 4, 5] 2 (by decide)⟩

/-- Claim C5, code evaluated at the failing input: `roots` of system 0
also returns the parentless classification of system 1, because the query
never filters on the classification system — contradicting the claim that
every returned node belongs to the queried system. -/
theorem C5_roots_ignores_system :
    ClassificationSystem.roots twoSystemDB sysZero = [rootInSysZero, rootInSysOne] ∧
    rootInSysOne.classification_system ≠ sysZero.id := by
  decide

/-- Claim C9: a classification is in `leaves(system)` exactly when it is a
stored row of `system` and no stored row of the same system references it
as parent. -/
theorem C9_leaves_membership (db : DB) (s : ClassificationSystem) (c : Classification) :
    c ∈ ClassificationSystem.leaves db s ↔
      c ∈ db.classifications ∧ c.classification_system = s.id ∧
        ¬∃ k ∈ db.classifications,
            k.classification_system = s.id ∧ k.parent = some c.id := by
  simp only [ClassificationSystem.leaves, List.mem_filter, Bool.and_eq_true,
    Bool.not_eq_true', List.any_eq_false, Bool.and_eq_false_iff, beq_iff_eq,
    bne_iff_ne]
  constructor
  · rintro ⟨hmem, hall, hcs⟩
    exact ⟨hmem, hcs, fun ⟨k, hk, hks, hkp⟩ => hall k hk ⟨hks, hkp⟩⟩
  · rintro ⟨hmem, hcs, hno⟩
    exact ⟨hmem, fun k hk hkand => hno ⟨k, hk, hkand.1, hkand.2⟩, hcs⟩

theorem level_succ_eq (db : DB) (fuel : Nat) (c : Classification) :
    Classification.level db (fuel + 1) c
      = match c.parent with
        | none => .ok 0
        | some pid =>
          match db.classifications.find? (fun k => k.id == pid) with
          | none => .error .doesNotExist
          | some p => (Classification.level db fuel p).map (· + 1) := rfl

theorem level_parent_none (db : DB) (fuel : Nat) (c : Classification)
    (hp : c.parent = none) : Classification.level db (fuel + 1) c = .ok 0 := by
  rw [level_succ_eq, hp]

theorem level_parent_dangling (db : DB) (fuel : Nat) (c : Classification) (pid : Nat)
    (hp : c.parent = some pid)
    (hf : db.classifications.find? (fun k => k.id == pid) = none) :
    Classification.level db (fuel + 1) c = .error .doesNotExist := by
  simp only [level_succ_eq, hp, hf]

theorem level_parent_found (db : DB) (fuel : Nat) (c : Classification) (pid : Nat)
    (p : Classification) (hp : c.parent = some pid)
    (hf : db.classifications.find? (fun k => k.id == pid) = some p) :
    Classification.level db (fuel + 1) c
      = (Classification.level db fuel p).map (· + 1) := by
  simp only [level_succ_eq, hp, hf]

theorem parentChainShort_succ_eq (db : DB) (fuel : Nat) (c : Classification) :
    parentChainShort db (fuel + 1) c
      = match c.parent with
        | none => true
        | some pid =>
          match db.classifications.find? (fun k => k.id == pid) with
          | none => false
          | some p => parentChainShort db fuel p := rfl

theorem except_map_eq_ok {α β : Type} (f : α → β) (x : Except Err α) (b : β)
    (h : x.map f = .ok b) : ∃ a, x = .ok a ∧ b = f a := by
  cases x with
  | error e => exact absurd h (by simp [Except.map])
  | ok a =>
    refine ⟨a, rfl, ?_⟩
    simpa [Except.map] using h.symm

theorem level_mono (db : DB) :
    ∀ f1 f2 c n, f1 ≤ f2 → Classification.level db f1 c = .ok n →
      Classification.level db f2 c = .ok n := by
  intro f1
  induction f1 with
  | zero =>
    intro f2 c n _ hlev
    exact absurd hlev (by simp [Classification.level])
  | succ f1 ih =>
    intro f2 c n hle hlev
    obtain ⟨f2', rfl⟩ : ∃ f2', f2 = f2' + 1 := ⟨f2 - 1, by omega⟩
    cases hp : c.parent with
    | none =>
      rw [level_parent_none db f1 c hp] at hlev
      rw [level_parent_none db f2' c hp]
      exact hlev
    | some pid =>
      cases hf : db.classifications.find? (fun k => k.id == pid) with
      | none =>
        rw [level_parent_dangling db f1 c pid hp hf] at hlev
        exact absurd hlev (by simp)
      | some p =>
        rw [level_parent_found db f1 c pid p hp hf] at hlev
        obtain ⟨m, hm, rfl⟩ := except_map_eq_ok _ _ _ hlev
        rw [level_parent_found db f2' c pid p hp hf, ih f2' p m (by omega) hm]
        rfl

/-- Claim C7: whenever the parent chain of a node resolves up to a
parentless node within the given fuel (so it is finite and acyclic),
`level` terminates with a value that is 0 at a parentless node and the
parent's level plus one otherwise. -/
theorem C7_level_spec (db : DB) :
    ∀ fuel c, parentChainShort db fuel c = true →
      ∃ n, Classification.level db fuel c = .ok n ∧
        (c.parent = none → n = 0) ∧
        (∀ pid p, c.parent = some pid →
          db.classifications.find? (fun k => k.id == pid) = some p →
          ∃ m, Classification.level db fuel p = .ok m ∧ n = m + 1) := by
  intro fuel
  induction fuel with
  | zero =>
    intro c hc
    exact absurd hc (by simp [parentChainShort])
  | succ fuel ih =>
    intro c hc
    cases hp : c.parent with
    | none =>
      refine ⟨0, level_parent_none db fuel c hp, fun _ => rfl, ?_⟩
      intro pid p hpid _
      exact absurd hpid (by simp)
    | some pid =>
      have hsplit : ∃ p, db.classifications.find? (fun k => k.id == pid) = some p ∧
          parentChainShort db fuel p = true := by
        rw [parentChainShort_succ_eq, hp] at hc
        cases hf : db.classifications.find? (fun k => k.id == pid) with
        | none =>
          simp only [hf] at hc
          exact absurd hc (by simp)
        | some p =>
          simp only [hf] at hc
          exact ⟨p, rfl, hc⟩
      obtain ⟨p, hf, hcp⟩ := hsplit
      obtain ⟨m, hm, _, _⟩ := ih p hcp
      refine ⟨m + 1, ?_, ?_, ?_⟩
      · rw [level_parent_found db fuel c pid p hp hf, hm]
        rfl
      · intro hnone
        exact absurd hnone (by simp)
      · intro pid' p' hpid' hf'
        obtain rfl := Option.some.inj hpid'
        rw [hf] at hf'
        obtain rfl := Option.some.inj hf'
        exact ⟨m, level_mono db fuel (fuel + 1) p m (by omega) hm, rfl⟩

theorem C7_witness :
    parentChainShort twoSystemDB 2 (⟨3, 0, some 1⟩ : Classification) = true ∧
    (∃ n, Classification.level twoSystemDB 2 ⟨3, 0, some 1⟩ = .ok n ∧
      ((⟨3, 0, some 1⟩ : Classification).parent = none → n = 0) ∧
      (∀ pid p, (⟨3, 0, some 1⟩ : Classification).parent = some pid →
        twoSystemDB.classifications.find? (fun k => k.id == pid) = some p →
        ∃ m, Classification.level twoSystemDB 2 p = .ok m ∧ n = m + 1)) :=
  ⟨by decide, C7_level_spec twoSystemDB 2 ⟨3, 0, some 1⟩ (by decide)⟩

/-- Claim C1 (the code evaluated at the failing input): with no item at
`P` but items 3 and 4 at its children, `get_value_of` raises
`DoesNotExist` instead of returning the children sum 7. -/
theorem C1_missing_item_raises :
    Budget.get_value_of aggregationDB 10 budgetB parentP = .error .doesNotExist ∧
    Budget.get_value_of aggregationDB 10 budgetB leafL1 = .ok 3 ∧
    Budget.get_value_of aggregationDB 10 budgetB leafL2 = .ok 4 :=
  ⟨rfl, rfl, rfl⟩

/-- Claim C4 counterexample: budget and classification agree on system 0,
yet `get_value_of` still fails with the mismatch error (`ValueError`),
surfaced from resolving a `MappedBudgetItem` whose mapped classification
belongs to a different system than its mapped budget — refuting the
claimed equivalence. -/
theorem C4_counterexample :
    budgetB.classification_system = classC.classification_system ∧
    Budget.get_value_of crossSystemDB 3 budgetB classC = .error .valueError :=
  ⟨rfl, rfl⟩

/-- Claim C4 amended: whenever the classification's system differs from
the budget's, `get_value_of` fails with the mismatch error; the converse
does not hold, since the same error can surface from a nested mapped
resolution even when the systems match. -/
theorem C4_mismatch_always_raises (db : DB) (fuel : Nat) (b : Budget)
    (c : Classification)
    (h : b.classification_system ≠ c.classification_system) :
    Budget.get_value_of db (fuel + 1) b c = .error .valueError := by
  have hb : (b.classification_system != c.classification_system) = true := by
    simpa [bne_iff_ne] using h
  simp only [Budget.get_value_of, hb, if_true]

theorem C4_amended_witness :
    (⟨0, 0⟩ : Budget).classification_system
      ≠ (⟨9, 5, none⟩ : Classification).classification_system ∧
    Budget.get_value_of crossSystemDB 1 ⟨0, 0⟩ ⟨9, 5, none⟩ = .error .valueError :=
  ⟨by decide, C4_mismatch_always_raises crossSystemDB 0 ⟨0, 0⟩ ⟨9, 5, none⟩ (by decide)⟩

theorem sumExcept_map_ok {α : Type} (f : α → Except Err ℚ) :
    ∀ (l : List α) (vs : List ℚ),
      List.Forall₂ (fun c q => f c = .ok q) l vs →
      sumExcept (l.map f) = .ok vs.sum := by
  intro l vs h
  induction h with
  | nil => simp [sumExcept]
  | cons hx hrest ih =>
    simp only [List.map_cons, sumExcept, hx, ih, List.sum_cons]

/-- Claim C8: for a `MappedBudgetItem`, whenever each mapped
classification resolves in the mapped budget to a value, `value()` is the
sum of those values. -/
theorem C8_mapped_value (db : DB) (fuel : Nat) (item : BudgetItem)
    (mapped_budget : Budget) (mapped_classifications : List Classification)
    (vs : List ℚ)
    (hvar : item.variant = .mapped mapped_budget mapped_classifications)
    (h : List.Forall₂
      (fun c q => Budget.get_value_of db fuel mapped_budget c = .ok q)
      mapped_classifications vs) :
    BudgetItem.value db fuel item = .ok vs.sum := by
  simp only [BudgetItem.value, hvar]
  exact sumExcept_map_ok _ _ _ h

theorem C8_witness :
    mappedItem.variant = .mapped budgetY0 [⟨1, 0, none⟩, ⟨2, 0, none⟩] ∧
    List.Forall₂
      (fun c q => Budget.get_value_of mappedTargetDB 1 budgetY0 c = .ok q)
      [⟨1, 0, none⟩, ⟨2, 0, none⟩] [3, 4] ∧
    BudgetItem.value mappedTargetDB 1 mappedItem = .ok ([3, 4] : List ℚ).sum := by
  refine ⟨rfl, ?_, ?_⟩
  · exact List.Forall₂.cons rfl (List.Forall₂.cons rfl List.Forall₂.nil)
  · exact C8_mapped_value mappedTargetDB 1 mappedItem budgetY0 _ [3, 4] rfl
      (List.Forall₂.cons rfl (List.Forall₂.cons rfl List.Forall₂.nil))

theorem C9_witness :
    rootInSysZero ∈ ClassificationSystem.leaves twoSystemDB sysZero ↔
      rootInSysZero ∈ twoSystemDB.classifications ∧
        rootInSysZero.classification_system = sysZero.id ∧
        ¬∃ k ∈ twoSystemDB.classifications,
            k.classification_system = sysZero.id ∧ k.parent = some rootInSysZero.id :=
  C9_leaves_membership twoSystemDB sysZero rootInSysZero
